import Mathlib

/-!
Verification of the transcription service (src/Transcription/app.py) against
its natural-language specification.

The embedding is a shallow one over `List Char` for Python strings and `ℚ`
for audio samples.  Library calls (librosa, the Wav2Vec2 model, the
processor) are modelled as oracle fields of an `Env` structure, since the
spec treats them as pre-built components; everything the repository's own
code computes (validation, regex fixups, argmax, response assembly, the
retry loop) is translated directly from the source.  The embedding is
ASCII-faithful: Python's `str.lower`, `\w`, `\s` and `str.strip` are
modelled on their ASCII behaviour, which covers every string the service
itself constructs.
-/

/-! ### Character classes (Python `\s`, `\w`, ASCII) -/

/-- Python regex `\s` on ASCII: space, tab, newline, carriage return,
vertical tab, form feed. -/
def isSpaceChar (c : Char) : Bool :=
  c == ' ' || c == '\t' || c == '\n' || c == '\r' || c == '\x0b' || c == '\x0c'

/-- Python regex `\w` on ASCII: letters, digits and underscore. -/
def isWordChar (c : Char) : Bool :=
  c.isAlphanum || c == '_'

/-! ### Whole-word case-insensitive substitution, the model of
`re.sub(r'\bWORD\b', rep, text, flags=re.IGNORECASE)` for a literal WORD.
The scanner walks the text left to right; at each position it matches the
pattern case-insensitively and checks the two `\b` assertions against the
original text (the character before the match and the character after it
must not be word characters).  On a match it emits the replacement and
resumes after the matched characters, exactly as `re.sub` does with
non-overlapping leftmost matches.  The structural fuel argument starts at
the text length, which is enough for the whole scan. -/

/-- The `\b` assertion before the match: start of text or a non-word
character. -/
def boundaryOk : Option Char → Bool
  | none => true
  | some c => !isWordChar c

/-- Case-insensitive literal prefix match (Python `re.IGNORECASE` on
ASCII). -/
def ciLead : List Char → List Char → Bool
  | [], _ => true
  | _ :: _, [] => false
  | p :: ps, c :: cs => (p.toLower == c.toLower) && ciLead ps cs

/-- The `\b` assertion after the match: end of text or a non-word
character. -/
def nonWordNext : List Char → Bool
  | [] => true
  | d :: _ => !isWordChar d

/-- One pass of whole-word case-insensitive substitution.  `prev` is the
character of the original text just before the current position. -/
def subWordFuel (p : Char) (ps rep : List Char) : Nat → Option Char → List Char → List Char
  | 0, _, s => s
  | _ + 1, _, [] => []
  | f + 1, prev, c :: cs =>
    if boundaryOk prev && ciLead (p :: ps) (c :: cs) && nonWordNext (cs.drop ps.length) then
      rep ++ subWordFuel p ps rep f (((c :: cs).take (ps.length + 1)).getLast?) (cs.drop ps.length)
    else
      c :: subWordFuel p ps rep f (some c) cs

/-- `re.sub(r'\bPAT\b', rep, t, flags=re.IGNORECASE)` for a literal pattern
`PAT`. -/
def applyFix (pr : List Char × List Char) (t : List Char) : List Char :=
  match pr.1 with
  | [] => t
  | p :: ps => subWordFuel p ps pr.2 t.length none t

/-- Scanner deciding whether the text has a whole-word case-insensitive
occurrence of the pattern; it tests the same condition at the same
positions as `subWordFuel`. -/
def hasWWFuel (p : Char) (ps : List Char) : Nat → Option Char → List Char → Bool
  | 0, _, _ => false
  | _ + 1, _, [] => false
  | f + 1, prev, c :: cs =>
    (boundaryOk prev && ciLead (p :: ps) (c :: cs) && nonWordNext (cs.drop ps.length)) ||
      hasWWFuel p ps f (some c) cs

/-- Whether `t` contains a whole-word case-insensitive occurrence of
`pat`. -/
def hasWholeWordCI (pat t : List Char) : Bool :=
  match pat with
  | [] => false
  | p :: ps => hasWWFuel p ps t.length none t

/-! ### Python string helpers used by `clean_transcription` -/

/-- Python `str.strip()` (ASCII whitespace). -/
def stripChars (s : List Char) : List Char :=
  (((s.dropWhile isSpaceChar).reverse.dropWhile isSpaceChar).reverse)

/-- Python `str.capitalize()`: first character uppercased, all remaining
characters lowercased (ASCII). -/
def pyCapitalize : List Char → List Char
  | [] => []
  | c :: cs => c.toUpper :: cs.map Char.toLower

/-- Python `text.split('. ')`: split on every non-overlapping occurrence of
the two-character separator, keeping empty pieces. -/
def splitDS : List Char → List (List Char)
  | [] => [[]]
  | '.' :: ' ' :: rest => [] :: splitDS rest
  | c :: rest =>
    match splitDS rest with
    | [] => [[c]]
    | piece :: pieces => (c :: piece) :: pieces

/-- `re.sub(r'\s+', ' ', text)`: every maximal run of whitespace becomes a
single space.  The Boolean argument records whether the previous character
belonged to a whitespace run. -/
def collapseWsAux (prevSpace : Bool) : List Char → List Char
  | [] => []
  | c :: cs =>
    if isSpaceChar c then
      if prevSpace then collapseWsAux true cs else ' ' :: collapseWsAux true cs
    else c :: collapseWsAux false cs

/-- The whitespace-collapse step of `clean_transcription`. -/
def collapseWs (t : List Char) : List Char :=
  collapseWsAux false t

/-- The three sentence-ending characters of the source's punctuation
check. -/
def isEndPunct (c : Char) : Bool :=
  c == '.' || c == '!' || c == '?'

/-- Source lines 41-42: `if text and not text[-1] in ['.', '!', '?']:
text += '.'`. -/
def ensurePunct (t : List Char) : List Char :=
  match t.getLast? with
  | none => t
  | some c => if isEndPunct c then t else t ++ ['.']

/-- The `common_fixes` table of `clean_transcription`, in the source's
insertion order; each entry is (literal word of the `\b…\b` pattern,
replacement). -/
def common_fixes : List (List Char × List Char) :=
  [("i".data, "I".data),
   ("im".data, "I'm".data),
   ("ive".data, "I've".data),
   ("youre".data, "you're".data),
   ("were".data, "we're".data),
   ("theres".data, "there's".data),
   ("dont".data, "don't".data),
   ("wont".data, "won't".data),
   ("cant".data, "can't".data),
   ("shouldnt".data, "shouldn't".data),
   ("couldnt".data, "couldn't".data),
   ("wouldnt".data, "wouldn't".data),
   ("isnt".data, "isn't".data),
   ("aren't".data, "aren't".data),
   ("wasnt".data, "wasn't".data),
   ("werent".data, "weren't".data),
   ("havent".data, "haven't".data),
   ("hasnt".data, "hasn't".data),
   ("hadnt".data, "hadn't".data),
   ("doesnt".data, "doesn't".data),
   ("didnt".data, "didn't".data)]

/-- The `for pattern, replacement in common_fixes.items(): text = re.sub(...)`
loop. -/
def applyFixes (t : List Char) : List Char :=
  common_fixes.foldl (fun acc pr => applyFix pr acc) t

/-- The separator `'. '` used to split and rejoin sentences. -/
def dotSpace : List Char := ['.', ' ']

/-- `clean_transcription` (source lines 30-72): collapse whitespace, split
into sentences on `'. '`, strip and capitalize the non-empty ones, rejoin,
ensure terminal punctuation, apply the contraction fixups, strip. -/
def clean_transcription (t : List Char) : List Char :=
  let t1 := collapseWs t
  let sentences := splitDS t1
  let capped := (sentences.filter (fun s => !(stripChars s).isEmpty)).map
    (fun s => pyCapitalize (stripChars s))
  let t2 := List.intercalate dotSpace capped
  let t3 := ensurePunct t2
  let t4 := applyFixes t3
  stripChars t4

example : clean_transcription "hello world".data = "Hello world.".data := by decide
example : clean_transcription "HELLO WORLD".data = "Hello world.".data := by decide
example : clean_transcription "i  dont know. its fine".data = "I don't know. Its fine.".data := by
  decide
example : clean_transcription "the tests were green".data = "The tests we're green.".data := by
  decide
example : clean_transcription "".data = "".data := by decide
example : clean_transcription "   ".data = "".data := by decide
example : clean_transcription "wait... what".data = "Wait... What.".data := by decide

/-! ### Claim C2's spec-side definitions.
`collapseWsSpec` is an independent rendering of "collapse every run of
whitespace to a single space" (it recurses on adjacent pairs and keeps the
last character of each run as the space); `clean_spec_C2` is the cleanup
function exactly as claim C2 words it, with the first letter of each
sentence uppercased and nothing else changed. -/

/-- Claim C2's wording of the whitespace step, written as an independent
recursion on adjacent character pairs. -/
def collapseWsSpec : List Char → List Char
  | [] => []
  | [c] => if isSpaceChar c then [' '] else [c]
  | c :: d :: rest =>
    if isSpaceChar c && isSpaceChar d then collapseWsSpec (d :: rest)
    else (if isSpaceChar c then ' ' else c) :: collapseWsSpec (d :: rest)

/-- Capitalizing only the first letter of a sentence, the literal reading
of claim C2 (the rest of the sentence is left unchanged). -/
def capFirstOnly : List Char → List Char
  | [] => []
  | c :: cs => c.toUpper :: cs

/-- Claim C2 exactly as stated: collapse whitespace runs, split on `'. '`
into sentences, drop the blank ones, capitalize each sentence's first
letter, rejoin, and apply the whole-word contraction fixups — and nothing
else. -/
def clean_spec_C2 (t : List Char) : List Char :=
  applyFixes (List.intercalate dotSpace
    ((((splitDS (collapseWsSpec t)).map stripChars).filter (fun s => !s.isEmpty)).map
      capFirstOnly))

/-- Claim C2 as the counterexample forces it to be amended: the
capitalization is Python's `str.capitalize` (first character uppercased,
the rest lowercased), a terminal `'.'` is appended to a non-empty text not
already ending in `'.'`, `'!'` or `'?'` before the fixups run, and the
result is stripped. -/
def clean_spec_C2_amended (t : List Char) : List Char :=
  stripChars (applyFixes (ensurePunct (List.intercalate dotSpace
    ((((splitDS (collapseWsSpec t)).map stripChars).filter
        (fun s => !s.isEmpty)).map pyCapitalize))))

/-! ### The audio pipeline (`transcribe_audio`, source lines 74-109).
Audio samples are rationals; librosa, the feature extractor, the model and
the tokenizer's `batch_decode` are oracle fields of `Env`. -/

/-- The library calls the service glues together.  `load` is the outcome of
`librosa.load(path, sr=16000)` (audio samples and the reported sample
rate, or the exception's message); `resample`, `procIn`, `logits` and
`decode` are `librosa.resample`, the processor's feature extraction,
the model's logit computation (one row of logits per output frame) and
`processor.batch_decode`; `saveOk` tells whether `audio_file.save`
succeeds, and `existsAtCleanup` is the `os.path.exists` answer in the
endpoint's `finally` block. -/
structure Env where
  saveOk : Bool
  saveErrMsg : List Char
  load : Except (List Char) (List ℚ × Nat)
  resample : List ℚ → Nat → List ℚ
  procIn : List ℚ → List ℚ
  logits : List ℚ → List (List ℚ)
  decode : List Nat → List Char
  existsAtCleanup : Bool

/-- `torch.argmax` over one row of logits: index of the first maximal
entry (0 for an empty row). -/
def argmaxAux : Nat → Nat → ℚ → List ℚ → Nat
  | _, best, _, [] => best
  | i, best, bv, x :: xs =>
    if x > bv then argmaxAux (i + 1) i x xs else argmaxAux (i + 1) best bv xs

/-- Index of the first maximum of a logit row. -/
def argmaxIdx : List ℚ → Nat
  | [] => 0
  | x :: xs => argmaxAux 1 0 x xs

/-- `np.max(np.abs(a))`: `none` models the `ValueError` numpy raises on an
empty array (caught by `transcribe_audio`'s `except` clause). -/
def npMaxAbs : List ℚ → Option ℚ
  | [] => none
  | x :: xs => some (xs.foldl (fun m y => max m |y|) |x|)

/-- Source line 79: resample only when the reported rate is not 16000. -/
def resampled (env : Env) (audio : List ℚ) (sr : Nat) : List ℚ :=
  if sr ≠ 16000 then env.resample audio sr else audio

/-- The predicted token ids the service passes to `batch_decode`:
an argmax per logit row, nothing collapsed, nothing dropped. -/
def serviceIds (env : Env) (a2 : List ℚ) : List Nat :=
  (env.logits (env.procIn a2)).map argmaxIdx

/-- The fixed string `transcribe_audio` returns from its `except` clause. -/
def apologyMsg : List Char :=
  "Sorry, there was an error processing the audio.".data

/-- What `transcribe_audio` produced: the returned text, and whether the
model was actually run (false on the internal error path, which is reached
when the resampled audio is empty and `np.max` raises). -/
structure TResult where
  text : List Char
  modelInvoked : Bool
deriving DecidableEq

/-- `transcribe_audio` (source lines 74-109): resample if needed, normalize
by the maximum absolute sample, run the model, argmax, decode, clean.  Any
internal exception yields the fixed apology text.  (For all-zero non-empty
audio numpy divides by zero without raising; the embedding divides in `ℚ`,
where that corner returns zeros — no claim depends on it.) -/
def transcribe_audio (env : Env) (audio : List ℚ) (sr : Nat) : TResult :=
  let a1 := resampled env audio sr
  match npMaxAbs a1 with
  | none => ⟨apologyMsg, false⟩
  | some m =>
    let a2 := a1.map (fun x => x / m)
    ⟨clean_transcription (env.decode (serviceIds env a2)), true⟩

/-! ### `os.path.splitext` and the upload validation -/

/-- The extension part of `os.path.splitext` (posix): the suffix from the
last `'.'` of the basename, unless every character of the basename before
that dot is itself a `'.'` (so `.bashrc` and `..wav` have no extension). -/
def splitextExt (pth : List Char) : List Char :=
  let base := (pth.reverse.takeWhile (fun c => c ≠ '/')).reverse
  let r := base.reverse
  let pre := r.takeWhile (fun c => c ≠ '.')
  if pre.length = r.length then []
  else
    let before := r.drop (pre.length + 1)
    if before.all (fun c => c == '.') then [] else '.' :: pre.reverse

example : splitextExt "speech.WAV".data = ".WAV".data := by decide
example : splitextExt "a.tar.gz".data = ".gz".data := by decide
example : splitextExt ".wav".data = "".data := by decide
example : splitextExt "noext".data = "".data := by decide
example : splitextExt "dir.d/noext".data = "".data := by decide

/-- `allowed_extensions` (source line 584). -/
def allowed_extensions : List (List Char) :=
  [".wav".data, ".mp3".data, ".flac".data, ".m4a".data, ".opus".data, ".ogg".data]

/-! ### Duration formatting: `f"{len(audio_data)/sample_rate:.2f} seconds"`.
Python first divides the two ints in binary64: the quotient `n / sr` is
correctly rounded to the nearest double (ties to even mantissa, subnormals
below `2 ^ (-1022)`, and an `OverflowError` when the rounded result would
reach `2 ^ 1024`).  `:.2f` then renders the exact value of that double to
two decimals, again correctly rounded; an exact decimal tie can only be a
dyadic rational (an odd multiple of `1 / 8`), where the tie goes to the
even hundredths digit.  Both steps are exact integer arithmetic and are
modelled as such: `nearestDouble` produces the double as a dyadic pair
`M * 2 ^ E` (or `none` for the overflow), and `dyadicCents` rounds that
value times 100 to an integer.  This reproduces, e.g., `'0.01'` at
80/16000 (the true quotient 0.005 is a decimal midpoint but the double
sits above it) and `'0.01'` at 240/16000 (the double for 0.015 sits below
the midpoint). -/

/-- Decimal digits of a natural number (fuelled, structural). -/
def natToCharsAux : Nat → Nat → List Char
  | 0, _ => []
  | f + 1, n =>
    if n < 10 then [Char.ofNat (48 + n)]
    else natToCharsAux f (n / 10) ++ [Char.ofNat (48 + n % 10)]

/-- Decimal rendering of a natural number. -/
def natToChars (n : Nat) : List Char :=
  natToCharsAux (n + 1) n

/-- Number of binary digits of `n` (0 for 0); fuelled, structural. -/
def bitlenAux : Nat → Nat → Nat
  | 0, _ => 0
  | f + 1, n => if n = 0 then 0 else bitlenAux f (n / 2) + 1

/-- Bit length of a natural number. -/
def bitlen (n : Nat) : Nat :=
  bitlenAux (n + 1) n

/-- `a / b` rounded to the nearest integer, ties to even (`b > 0`). -/
def rheDiv (a b : Nat) : Nat :=
  let t := a / b
  let r := a % b
  if 2 * r < b then t
  else if b < 2 * r then t + 1
  else if t % 2 = 0 then t else t + 1

/-- `(n / sr) * 2 ^ k` rounded to the nearest integer, ties to even. -/
def rheScaled (n sr : Nat) (k : Int) : Nat :=
  rheDiv (n * 2 ^ k.toNat) (sr * 2 ^ (-k).toNat)

/-- The binade of `n / sr` for `n ≥ 1`: the integer `e` with
`2 ^ e ≤ n / sr < 2 ^ (e + 1)`. -/
def qexp (n sr : Nat) : Int :=
  let g : Int := (bitlen n : Int) - (bitlen sr : Int)
  if sr * 2 ^ g.toNat ≤ n * 2 ^ (-g).toNat then g else g - 1

/-- The binary64 nearest to `n / sr`, as a dyadic pair `(M, E)` of value
`M * 2 ^ E`; `none` models the `OverflowError` Python's int division
raises when the rounded quotient reaches `2 ^ 1024`.  (`sr = 0` never
reaches this function: the endpoint's division raises first.) -/
def nearestDouble (n sr : Nat) : Option (Nat × Int) :=
  if n = 0 then some (0, 0)
  else
    let e := qexp n sr
    if e < -1022 then some (rheDiv (n * 2 ^ 1074) sr, -1074)
    else
      let M := rheScaled n sr (52 - e)
      let M2 := if M = 2 ^ 53 then 2 ^ 52 else M
      let e2 := if M = 2 ^ 53 then e + 1 else e
      if 1023 < e2 then none else some (M2, e2 - 52)

/-- `M * 2 ^ E * 100` rounded to the nearest integer, ties to even: the
hundredths rendering of the exact value of a double. -/
def dyadicCents (M : Nat) (E : Int) : Nat :=
  if 0 ≤ E then M * 100 * 2 ^ E.toNat
  else rheDiv (M * 100) (2 ^ (-E).toNat)

/-- The `audio_duration` field: `n / sr` through binary64 division, then
two decimal places and the `" seconds"` suffix.  (The `none` case never
arises in the endpoint, which takes the 500 path on overflow before
formatting.) -/
def formatDuration (n sr : Nat) : List Char :=
  match nearestDouble n sr with
  | none => []
  | some (M, E) =>
    let cents := dyadicCents M E
    (natToChars (cents / 100) ++ '.' ::
      [Char.ofNat (48 + cents / 10 % 10), Char.ofNat (48 + cents % 10)]) ++ " seconds".data

example : formatDuration 1 16000 = "0.00 seconds".data := by decide
example : formatDuration 48000 16000 = "3.00 seconds".data := by decide
example : formatDuration 40000 16000 = "2.50 seconds".data := by decide
example : formatDuration 24000 16000 = "1.50 seconds".data := by decide
example : formatDuration 123456 16000 = "7.72 seconds".data := by decide
example : formatDuration 80 16000 = "0.01 seconds".data := by decide
example : formatDuration 240 16000 = "0.01 seconds".data := by decide
example : formatDuration 400 16000 = "0.03 seconds".data := by decide
example : formatDuration 2000 16000 = "0.12 seconds".data := by decide
example : formatDuration 6000 16000 = "0.38 seconds".data := by decide
example : formatDuration 10000 16000 = "0.62 seconds".data := by decide
example : formatDuration 1234567 44100 = "27.99 seconds".data := by decide

/-! ### The `/transcribe` endpoint (source lines 572-615) -/

/-- The request as the endpoint sees it: `none` when the form has no
`'audio'` part, otherwise the uploaded file's filename (`[]` when the
browser sent an empty one). -/
structure Req where
  audio : Option (List Char)
deriving DecidableEq

/-- What one call of the endpoint did: the HTTP status and JSON body of the
response, whether the temp-file path was allocated and a save attempted,
whether the model ran, and whether the `finally` block called
`safe_delete_file`. -/
structure EPResult where
  status : Nat
  body : List (List Char × List Char)
  tempCreated : Bool
  modelInvoked : Bool
  deleteAttempted : Bool
deriving DecidableEq

/-- The key of every error response. -/
def errKey : List Char := "error".data

/-- `transcribe_endpoint` (source lines 572-615).  Validation happens
before any temp file exists; the `finally` block calls `safe_delete_file`
exactly when a temp path was allocated and the file exists at cleanup
time.  A failing `audio_file.save`, a zero sample rate (which would make
`len(audio_data)/sample_rate` raise `ZeroDivisionError`) and a quotient
beyond the largest binary64 (where that division raises `OverflowError`)
take the outer `except` path and answer 500. -/
def transcribe_endpoint (env : Env) (req : Req) : EPResult :=
  match req.audio with
  | none => ⟨400, [(errKey, "No audio file provided".data)], false, false, false⟩
  | some filename =>
    if filename = [] then ⟨400, [(errKey, "No file selected".data)], false, false, false⟩
    else
      let file_ext := splitextExt (filename.map Char.toLower)
      if file_ext ∈ allowed_extensions then
        let cleanup := env.existsAtCleanup
        if env.saveOk then
          match env.load with
          | .error e =>
            ⟨400, [(errKey, "Error loading audio file: ".data ++ e)], true, false, cleanup⟩
          | .ok (audio, sr) =>
            let t := transcribe_audio env audio sr
            if sr = 0 then
              ⟨500, [(errKey, "division by zero".data)], true, t.modelInvoked, cleanup⟩
            else if nearestDouble audio.length sr = none then
              ⟨500, [(errKey, "integer division result too large for a float".data)],
               true, t.modelInvoked, cleanup⟩
            else
              ⟨200,
               [("status".data, "success".data),
                ("transcription".data, t.text),
                ("audio_duration".data, formatDuration audio.length sr),
                ("filename".data, filename)],
               true, t.modelInvoked, cleanup⟩
        else ⟨500, [(errKey, env.saveErrMsg)], true, false, cleanup⟩
      else
        ⟨400,
         [(errKey, "File type ".data ++ file_ext ++
            " not supported. Use: WAV, MP3, FLAC, M4A, OPUS, OGG".data)],
         false, false, false⟩

/-- The three ways a request fails the endpoint's validation (claim C1). -/
def validationFails (req : Req) : Prop :=
  match req.audio with
  | none => True
  | some f => f = [] ∨ splitextExt (f.map Char.toLower) ∉ allowed_extensions

instance : DecidablePred validationFails := fun req =>
  match req with
  | ⟨none⟩ => isTrue trivial
  | ⟨some f⟩ =>
    inferInstanceAs (Decidable (f = [] ∨ splitextExt (f.map Char.toLower) ∉ allowed_extensions))

/-! ### `safe_delete_file` (source lines 111-124).
The filesystem is an oracle `Nat → FsOutcome` giving, for each loop
iteration, what `os.path.exists`/`os.unlink` did: the file was absent, the
unlink succeeded, it raised `PermissionError`, or it raised some other
exception (which the function does not catch). -/

/-- What one iteration's filesystem interaction did. -/
inductive FsOutcome where
  | notExists
  | unlinkOk
  | permError
  | otherError
deriving DecidableEq

/-- How the call ended: `return True`, `return False`, or an uncaught
exception. -/
inductive DelResult where
  | retTrue
  | retFalse
  | raised
deriving DecidableEq

/-- A finished run: its result, how many loop iterations ran, and at which
iteration indices `time.sleep(delay)` was called. -/
structure DelRun where
  result : DelResult
  attempts : Nat
  sleeps : List Nat
deriving DecidableEq

/-- The `for i in range(max_retries)` loop, iteration `i`, with `rem`
iterations remaining (`rem = n - i`; the fuel keeps the recursion
structural). -/
def safeDeleteAux (env : Nat → FsOutcome) (n : Nat) : Nat → Nat → DelRun
  | _, 0 => ⟨.retFalse, n, []⟩
  | i, rem + 1 =>
    match env i with
    | .notExists => safeDeleteAux env n (i + 1) rem
    | .unlinkOk => ⟨.retTrue, i + 1, []⟩
    | .permError =>
      if i < n - 1 then
        let r := safeDeleteAux env n (i + 1) rem
        ⟨r.result, r.attempts, i :: r.sleeps⟩
      else ⟨.retFalse, i + 1, []⟩
    | .otherError => ⟨.raised, i + 1, []⟩

/-- `safe_delete_file` (source lines 111-124) with `max_retries = n`. -/
def safe_delete_file (env : Nat → FsOutcome) (n : Nat) : DelRun :=
  safeDeleteAux env n 0 n

example :
    safe_delete_file (fun _ => .unlinkOk) 5 = ⟨.retTrue, 1, []⟩ := by decide
example :
    safe_delete_file (fun _ => .notExists) 5 = ⟨.retFalse, 5, []⟩ := by decide
example :
    safe_delete_file (fun _ => .permError) 5 = ⟨.retFalse, 5, [0, 1, 2, 3]⟩ := by decide
example :
    safe_delete_file (fun i => if i < 2 then .permError else .unlinkOk) 5 =
      ⟨.retTrue, 3, [0, 1]⟩ := by decide

/-! ### Lemmas about the retry loop -/

theorem sda_attempts_le (env : Nat → FsOutcome) (n : Nat) :
    ∀ rem i, i + rem ≤ n → (safeDeleteAux env n i rem).attempts ≤ n := by
  intro rem
  induction rem with
  | zero => intro i _; simp [safeDeleteAux]
  | succ r ih =>
    intro i hle
    rw [safeDeleteAux]
    cases env i with
    | notExists => exact ih (i + 1) (by omega)
    | unlinkOk => simpa using by omega
    | permError =>
      dsimp only
      split
      · exact ih (i + 1) (by omega)
      · simpa using by omega
    | otherError => simpa using by omega

theorem sda_result_true_iff (env : Nat → FsOutcome) (n : Nat) :
    ∀ rem i, i + rem = n →
      ((safeDeleteAux env n i rem).result = .retTrue ↔
        ∃ k, i ≤ k ∧ k < n ∧ env k = .unlinkOk ∧
          ∀ j, i ≤ j → j < k → (env j = .notExists ∨ env j = .permError)) := by
  intro rem
  induction rem with
  | zero =>
    intro i hi
    constructor
    · intro h; simp [safeDeleteAux] at h
    · rintro ⟨k, hik, hkn, -, -⟩; omega
  | succ r ih =>
    intro i hi
    rw [safeDeleteAux]
    cases he : env i with
    | notExists =>
      rw [ih (i + 1) (by omega)]
      constructor
      · rintro ⟨k, hik, hkn, hk, hall⟩
        exact ⟨k, by omega, hkn, hk, fun j hj1 hj2 => by
          rcases Nat.eq_or_lt_of_le hj1 with h | h
          · exact Or.inl (h ▸ he)
          · exact hall j h hj2⟩
      · rintro ⟨k, hik, hkn, hk, hall⟩
        refine ⟨k, ?_, hkn, hk, fun j hj1 hj2 => hall j (by omega) hj2⟩
        rcases Nat.eq_or_lt_of_le hik with h | h
        · rw [← h] at hk; rw [he] at hk; cases hk
        · omega
    | unlinkOk =>
      exact iff_of_true rfl ⟨i, le_refl i, by omega, he, fun j hj1 hj2 => by omega⟩
    | permError =>
      dsimp only
      split
      · rw [show (⟨(safeDeleteAux env n (i + 1) r).result, (safeDeleteAux env n (i + 1) r).attempts,
            i :: (safeDeleteAux env n (i + 1) r).sleeps⟩ : DelRun).result =
            (safeDeleteAux env n (i + 1) r).result from rfl]
        rw [ih (i + 1) (by omega)]
        constructor
        · rintro ⟨k, hik, hkn, hk, hall⟩
          exact ⟨k, by omega, hkn, hk, fun j hj1 hj2 => by
            rcases Nat.eq_or_lt_of_le hj1 with h | h
            · exact Or.inr (h ▸ he)
            · exact hall j h hj2⟩
        · rintro ⟨k, hik, hkn, hk, hall⟩
          refine ⟨k, ?_, hkn, hk, fun j hj1 hj2 => hall j (by omega) hj2⟩
          rcases Nat.eq_or_lt_of_le hik with h | h
          · rw [← h] at hk; rw [he] at hk; cases hk
          · omega
      · constructor
        · intro h; simp at h
        · rintro ⟨k, hik, hkn, hk, -⟩
          have : k = i := by omega
          rw [this, he] at hk; cases hk
    | otherError =>
      simp only
      constructor
      · intro h; cases h
      · rintro ⟨k, hik, hkn, hk, hall⟩
        rcases Nat.eq_or_lt_of_le hik with h | h
        · rw [← h, he] at hk; cases hk
        · rcases hall i (le_refl i) h with h2 | h2 <;> rw [he] at h2 <;> cases h2

theorem sda_sleeps (env : Nat → FsOutcome) (n : Nat) :
    ∀ rem i, ∀ x ∈ (safeDeleteAux env n i rem).sleeps,
      env x = .permError ∧ x + 1 < n := by
  intro rem
  induction rem with
  | zero => intro i x hx; simp [safeDeleteAux] at hx
  | succ r ih =>
    intro i x hx
    rw [safeDeleteAux] at hx
    cases he : env i with
    | notExists => rw [he] at hx; exact ih (i + 1) x hx
    | unlinkOk => rw [he] at hx; simp at hx
    | permError =>
      rw [he] at hx
      dsimp only at hx
      split at hx
      · rcases List.mem_cons.mp hx with h | h
        · subst h; exact ⟨he, by omega⟩
        · exact ih (i + 1) x h
      · simp at hx
    | otherError => rw [he] at hx; simp at hx

theorem sda_exhaust (env : Nat → FsOutcome) (n : Nat) :
    ∀ rem i, i + rem ≤ n →
      (∀ k, i ≤ k → k < n → env k = .notExists ∨ env k = .permError) →
      (safeDeleteAux env n i rem).result = .retFalse := by
  intro rem
  induction rem with
  | zero => intro i _ _; simp [safeDeleteAux]
  | succ r ih =>
    intro i hle h
    rw [safeDeleteAux]
    rcases h i (le_refl i) (by omega) with he | he <;> rw [he]
    · exact ih (i + 1) (by omega) (fun k hk1 hk2 => h k (by omega) hk2)
    · dsimp only
      split
      · exact ih (i + 1) (by omega) (fun k hk1 hk2 => h k (by omega) hk2)
      · rfl

/-- C3: `safe_delete_file` runs at most `max_retries` loop iterations; it
returns True exactly when an `os.unlink` call succeeded (an iteration hit
the file with no exception, all earlier iterations having found the file
absent or hit `PermissionError`); it sleeps only after a `PermissionError`
that is not on the last retry; and when every iteration finds the file
absent or a `PermissionError` it falls through to `return False`. -/
theorem claim_C3 (env : Nat → FsOutcome) (n : Nat) :
    (safe_delete_file env n).attempts ≤ n ∧
    ((safe_delete_file env n).result = .retTrue ↔
      ∃ k, k < n ∧ env k = .unlinkOk ∧
        ∀ j, j < k → (env j = .notExists ∨ env j = .permError)) ∧
    (∀ x ∈ (safe_delete_file env n).sleeps, env x = .permError ∧ x + 1 < n) ∧
    ((∀ k, k < n → env k = .notExists ∨ env k = .permError) →
      (safe_delete_file env n).result = .retFalse) := by
  refine ⟨sda_attempts_le env n n 0 (by omega), ?_, sda_sleeps env n n 0,
    fun h => sda_exhaust env n n 0 (by omega) (fun k _ hk => h k hk)⟩
  constructor
  · intro h
    rcases (sda_result_true_iff env n n 0 (by omega)).mp h with ⟨k, -, hkn, hk, hall⟩
    exact ⟨k, hkn, hk, fun j hj => hall j (Nat.zero_le j) hj⟩
  · rintro ⟨k, hkn, hk, hall⟩
    exact (sda_result_true_iff env n n 0 (by omega)).mpr
      ⟨k, Nat.zero_le k, hkn, hk, fun j _ hj => hall j hj⟩

/-- Witness for C3 at a concrete filesystem: with every iteration's unlink
succeeding and one retry, the call returns True. -/
theorem claim_C3_witness :
    (safe_delete_file (fun _ => .unlinkOk) 1).result = .retTrue :=
  (claim_C3 (fun _ => .unlinkOk) 1).2.1.mpr
    ⟨0, Nat.zero_lt_one, rfl, fun j hj => absurd hj (Nat.not_lt_zero j)⟩

/-- Runs of the loop over a filesystem where the path never exists. -/
theorem sda_notExists (n : Nat) :
    ∀ rem i, safeDeleteAux (fun _ => .notExists) n i rem = ⟨.retFalse, n, []⟩ := by
  intro rem
  induction rem with
  | zero => intro i; rw [safeDeleteAux]
  | succ r ih => intro i; rw [safeDeleteAux]; exact ih (i + 1)

/-- C10: when the path never exists, `safe_delete_file` runs all
`max_retries` iterations without deleting anything and returns False — the
same answer as a failed deletion. -/
theorem claim_C10 (n : Nat) :
    safe_delete_file (fun _ => .notExists) n = ⟨.retFalse, n, []⟩ ∧
    (safe_delete_file (fun _ => .notExists) n).result ≠ .retTrue := by
  have h : safe_delete_file (fun _ => .notExists) n = ⟨.retFalse, n, []⟩ := sda_notExists n n 0
  refine ⟨h, ?_⟩
  rw [h]
  intro hc
  cases hc

/-! ### Claims C1 and C4: validation and temp-file lifecycle -/

/-- C1: a request with no `'audio'` part, an empty filename, or a
lowercased extension outside the allowed set gets a 400 response whose
JSON body has an `'error'` key, with no temporary file created and the
model never invoked. -/
theorem claim_C1 (env : Env) (req : Req) (h : validationFails req) :
    (transcribe_endpoint env req).status = 400 ∧
    errKey ∈ (transcribe_endpoint env req).body.map Prod.fst ∧
    (transcribe_endpoint env req).tempCreated = false ∧
    (transcribe_endpoint env req).modelInvoked = false := by
  rcases req with ⟨_ | f⟩
  · exact ⟨rfl, List.mem_singleton.mpr rfl, rfl, rfl⟩
  · rcases h with hf | hext
    · subst hf
      exact ⟨rfl, List.mem_singleton.mpr rfl, rfl, rfl⟩
    · by_cases hf : f = []
      · subst hf
        exact ⟨rfl, List.mem_singleton.mpr rfl, rfl, rfl⟩
      · refine ⟨?_, ?_, ?_, ?_⟩ <;> simp [transcribe_endpoint, hf, hext]

/-- A concrete environment for witnesses: saving succeeds, loading yields
one-second silence at 16000 Hz, the oracles are constant. -/
def envW : Env :=
  ⟨true, "disk full".data, .ok ([1], 16000), fun a _ => a, fun _ => [],
    fun _ => [[0, 1], [0, 1]], fun _ => "hello".data, true⟩

/-- Witness for C1: a request uploading `report.pdf` is rejected with 400
and no temp file. -/
theorem claim_C1_witness :
    (transcribe_endpoint envW ⟨some "report.pdf".data⟩).status = 400 ∧
    (transcribe_endpoint envW ⟨some "report.pdf".data⟩).tempCreated = false :=
  ⟨(claim_C1 envW ⟨some "report.pdf".data⟩ (Or.inr (by decide))).1,
   (claim_C1 envW ⟨some "report.pdf".data⟩ (Or.inr (by decide))).2.2.1⟩

/-- In every branch of the endpoint, the `finally` block calls
`safe_delete_file` exactly when a temp path was allocated and
`os.path.exists` still sees the file. -/
theorem ep_delete_eq (env : Env) (req : Req) :
    (transcribe_endpoint env req).deleteAttempted =
      ((transcribe_endpoint env req).tempCreated && env.existsAtCleanup) := by
  rcases req with ⟨_ | f⟩
  · rfl
  · unfold transcribe_endpoint
    dsimp only
    split
    · rfl
    · split
      · split
        · rcases h : env.load with e | pair
          · rfl
          · rcases pair with ⟨audio, sr⟩
            dsimp only
            split
            · rfl
            · split <;> rfl
        · rfl
      · rfl

/-- C4: whenever the endpoint allocated a temp file and the file still
exists when the handler returns, the `finally` block has attempted its
deletion via `safe_delete_file` — on the success, load-failure, save-failure
and internal-error paths alike. -/
theorem claim_C4 (env : Env) (req : Req)
    (h1 : (transcribe_endpoint env req).tempCreated = true)
    (h2 : env.existsAtCleanup = true) :
    (transcribe_endpoint env req).deleteAttempted = true := by
  rw [ep_delete_eq, h1, h2]
  rfl

/-- Witness for C4: a valid upload with the file present at cleanup time
gets its deletion attempted. -/
theorem claim_C4_witness :
    (transcribe_endpoint envW ⟨some "talk.wav".data⟩).deleteAttempted = true :=
  claim_C4 envW ⟨some "talk.wav".data⟩ (by decide) rfl

/-! ### Claims C5, C6, C7: the inference pipeline and the success response -/

/-- On a valid upload whose load succeeds with a nonzero rate and a
quotient within the binary64 range, the endpoint answers 200 with the
four-field success body. -/
theorem ep_success (env : Env) (f : List Char) (audio : List ℚ) (sr : Nat)
    (hf : f ≠ []) (hext : splitextExt (f.map Char.toLower) ∈ allowed_extensions)
    (hsave : env.saveOk = true) (hload : env.load = .ok (audio, sr)) (hsr : sr ≠ 0)
    (hov : nearestDouble audio.length sr ≠ none) :
    transcribe_endpoint env ⟨some f⟩ =
      ⟨200,
       [("status".data, "success".data),
        ("transcription".data, (transcribe_audio env audio sr).text),
        ("audio_duration".data, formatDuration audio.length sr),
        ("filename".data, f)],
       true, (transcribe_audio env audio sr).modelInvoked, env.existsAtCleanup⟩ := by
  simp [transcribe_endpoint, hf, hext, hsave, hload, hsr, hov]

/-- When `np.max` succeeds, `transcribe_audio` runs the whole pipeline:
normalize, extract features, model, argmax, decode, clean. -/
theorem transcribe_audio_success (env : Env) (audio : List ℚ) (sr : Nat) (m : ℚ)
    (hm : npMaxAbs (resampled env audio sr) = some m) :
    transcribe_audio env audio sr =
      ⟨clean_transcription (env.decode
        (serviceIds env ((resampled env audio sr).map (fun x => x / m)))), true⟩ := by
  simp only [transcribe_audio]
  rw [hm]

/-- When the resampled audio is empty, `np.max` raises, the `except`
clause answers the fixed apology text and the model never runs. -/
theorem transcribe_audio_empty (env : Env) (audio : List ℚ) (sr : Nat)
    (ha : resampled env audio sr = []) :
    transcribe_audio env audio sr = ⟨apologyMsg, false⟩ := by
  simp only [transcribe_audio]
  rw [ha]
  rfl

/-- A non-empty sample list always has a maximum absolute value. -/
theorem npMaxAbs_isSome (a : List ℚ) (ha : a ≠ []) : ∃ m, npMaxAbs a = some m := by
  cases a with
  | nil => exact absurd rfl ha
  | cons x xs => exact ⟨_, rfl⟩

/-- The environment of C5's counterexample: everything succeeds but
`librosa.load` returns an empty sample array (a zero-length decode), on
which `np.max` raises. -/
def env0 : Env :=
  ⟨true, "disk full".data, .ok ([], 16000), fun a _ => a, fun _ => [],
    fun _ => [[0, 1], [0, 1]], fun _ => "hello".data, true⟩

/-- Counterexample to C5 as stated: a valid request (an uploaded `.wav`
whose decode yields zero samples) for which the service does not run the
model at all and still answers success — with the fixed apology string,
not the cleaned model output, as the transcription. -/
theorem claim_C5_counterexample :
    (transcribe_endpoint env0 ⟨some "a.wav".data⟩).status = 200 ∧
    (transcribe_endpoint env0 ⟨some "a.wav".data⟩).modelInvoked = false ∧
    (transcribe_endpoint env0 ⟨some "a.wav".data⟩).body =
      [("status".data, "success".data),
       ("transcription".data, apologyMsg),
       ("audio_duration".data, "0.00 seconds".data),
       ("filename".data, "a.wav".data)] ∧
    apologyMsg ≠ clean_transcription (env0.decode (serviceIds env0 [])) := by
  refine ⟨?_, ?_, ?_, ?_⟩ <;> decide

/-- C5 as amended: for every valid request whose decoded audio is
non-empty after the (conditional) resample (and whose duration quotient
stays within the binary64 range, as every physically possible upload
does), the endpoint saves the upload, loads it, resamples only when the
reported rate differs from 16000, normalizes by the maximum absolute
sample, runs the model, argmaxes, decodes, cleans with
`clean_transcription` and responds with exactly that cleaned string; when
the decoded audio is empty the internal error is caught and a fixed
apology string is returned instead (still as a success response). -/
theorem claim_C5 (env : Env) (f : List Char) (audio : List ℚ) (sr : Nat) (m : ℚ)
    (hf : f ≠ []) (hext : splitextExt (f.map Char.toLower) ∈ allowed_extensions)
    (hsave : env.saveOk = true) (hload : env.load = .ok (audio, sr)) (hsr : sr ≠ 0)
    (hov : nearestDouble audio.length sr ≠ none)
    (hm : npMaxAbs (resampled env audio sr) = some m) :
    (transcribe_endpoint env ⟨some f⟩).status = 200 ∧
    (transcribe_endpoint env ⟨some f⟩).tempCreated = true ∧
    (transcribe_endpoint env ⟨some f⟩).modelInvoked = true ∧
    (transcribe_endpoint env ⟨some f⟩).body =
      [("status".data, "success".data),
       ("transcription".data, clean_transcription (env.decode
          ((env.logits (env.procIn
            ((resampled env audio sr).map (fun x => x / m)))).map argmaxIdx))),
       ("audio_duration".data, formatDuration audio.length sr),
       ("filename".data, f)] ∧
    (sr = 16000 → resampled env audio sr = audio) ∧
    (sr ≠ 16000 → resampled env audio sr = env.resample audio sr) := by
  rw [ep_success env f audio sr hf hext hsave hload hsr hov,
    transcribe_audio_success env audio sr m hm]
  refine ⟨rfl, rfl, rfl, ?_, fun h => ?_, fun h => ?_⟩
  · simp only [serviceIds]
  · simp [resampled, h]
  · simp [resampled, h]

/-- Witness for C5 at a concrete request and environment. -/
theorem claim_C5_witness :
    (transcribe_endpoint envW ⟨some "talk.wav".data⟩).status = 200 ∧
    (transcribe_endpoint envW ⟨some "talk.wav".data⟩).modelInvoked = true :=
  ⟨(claim_C5 envW "talk.wav".data [1] 16000 1 (by decide) (by decide) rfl rfl (by decide)
      (by decide) (by decide)).1,
   (claim_C5 envW "talk.wav".data [1] 16000 1 (by decide) (by decide) rfl rfl (by decide)
      (by decide) (by decide)).2.2.1⟩

/-- C6: every success response carries exactly the keys `status` (equal to
`success`), `transcription` (the cleaned text), `audio_duration` (the
sample count over the sample rate — a binary64 division, as in the source
`f`-string — to two decimal places with the `" seconds"` suffix) and
`filename` (the uploaded name), in that order. -/
theorem claim_C6 (env : Env) (f : List Char) (audio : List ℚ) (sr : Nat) (m : ℚ)
    (hf : f ≠ []) (hext : splitextExt (f.map Char.toLower) ∈ allowed_extensions)
    (hsave : env.saveOk = true) (hload : env.load = .ok (audio, sr)) (hsr : sr ≠ 0)
    (hov : nearestDouble audio.length sr ≠ none)
    (hm : npMaxAbs (resampled env audio sr) = some m) :
    (transcribe_endpoint env ⟨some f⟩).body.map Prod.fst =
      ["status".data, "transcription".data, "audio_duration".data, "filename".data] ∧
    (transcribe_endpoint env ⟨some f⟩).body =
      [("status".data, "success".data),
       ("transcription".data, clean_transcription (env.decode
          (serviceIds env ((resampled env audio sr).map (fun x => x / m))))),
       ("audio_duration".data, formatDuration audio.length sr),
       ("filename".data, f)] := by
  rw [ep_success env f audio sr hf hext hsave hload hsr hov,
    transcribe_audio_success env audio sr m hm]
  refine ⟨rfl, ?_⟩
  simp only [serviceIds]

/-- Witness for C6 at a concrete request and environment: the body is the
four-field success object. -/
theorem claim_C6_witness :
    (transcribe_endpoint envW ⟨some "talk.wav".data⟩).body.map Prod.fst =
      ["status".data, "transcription".data, "audio_duration".data, "filename".data] :=
  (claim_C6 envW "talk.wav".data [1] 16000 1 (by decide) (by decide) rfl rfl (by decide)
    (by decide) (by decide)).1

/-- A model oracle whose logits are three identical frames, each maximal
at index 1: the ids the service passes to `batch_decode` keep the adjacent
repeats. -/
def envRep : Env :=
  ⟨true, [], .ok ([1], 16000), fun a _ => a, fun _ => [],
    fun _ => [[0, 1], [0, 1], [0, 1]], fun _ => [], true⟩

/-- C7: the service takes one argmax per logit row and hands the resulting
id list to the library's `batch_decode` unchanged — one id per frame,
adjacent repeats preserved, no collapsing of its own (the collapsing lives
inside the library oracle `decode`). -/
theorem claim_C7 (env : Env) (audio : List ℚ) (sr : Nat) (m : ℚ)
    (hm : npMaxAbs (resampled env audio sr) = some m) :
    (transcribe_audio env audio sr).text =
      clean_transcription (env.decode
        (serviceIds env ((resampled env audio sr).map (fun x => x / m)))) ∧
    serviceIds env ((resampled env audio sr).map (fun x => x / m)) =
      (env.logits (env.procIn ((resampled env audio sr).map (fun x => x / m)))).map argmaxIdx ∧
    (serviceIds env ((resampled env audio sr).map (fun x => x / m))).length =
      (env.logits (env.procIn ((resampled env audio sr).map (fun x => x / m)))).length ∧
    serviceIds envRep [] = [1, 1, 1] := by
  rw [transcribe_audio_success env audio sr m hm]
  refine ⟨?_, ?_, ?_, ?_⟩
  · simp only [serviceIds]
  · simp only [serviceIds]
  · simp only [serviceIds, List.length_map]
  · decide

/-- Witness for C7 at a concrete environment: the decoded ids are the
argmaxes, two frames in, two ids out. -/
theorem claim_C7_witness :
    serviceIds envW ((resampled envW [1] 16000).map (fun x => x / 1)) =
      (envW.logits (envW.procIn ((resampled envW [1] 16000).map (fun x => x / 1)))).map
        argmaxIdx :=
  (claim_C7 envW [1] 16000 1 (by decide)).2.1

/-! ### Lemmas about the substitution scanner -/

theorem subWordFuel_nil (p : Char) (ps rep : List Char) (f : Nat) (prev : Option Char) :
    subWordFuel p ps rep f prev [] = [] := by
  cases f <;> rfl

theorem ciLead_length : ∀ (pat s : List Char), ciLead pat s = true → pat.length ≤ s.length := by
  intro pat
  induction pat with
  | nil => intro s _; exact Nat.zero_le _
  | cons p ps ih =>
    intro s h
    cases s with
    | nil => cases h
    | cons x cs =>
      simp only [ciLead, Bool.and_eq_true] at h
      simpa using Nat.succ_le_succ (ih cs h.2)

theorem ciLead_getLast : ∀ (pat s : List Char) (c : Char), ciLead pat s = true →
    pat.length = s.length → s.getLast? = some c →
    ∃ q, q ∈ pat ∧ q.toLower = c.toLower := by
  intro pat
  induction pat with
  | nil =>
    intro s c _ hlen hs
    have : s = [] := by
      cases s with
      | nil => rfl
      | cons x cs => simp at hlen
    subst this
    cases hs
  | cons p ps ih =>
    intro s c h hlen hs
    cases s with
    | nil => cases h
    | cons x cs =>
      simp only [ciLead, Bool.and_eq_true, beq_iff_eq] at h
      cases cs with
      | nil =>
        have hc : x = c := by simpa using hs
        exact ⟨p, List.mem_cons_self p ps, by rw [h.1, hc]⟩
      | cons y ys =>
        have hps : ps.length = (y :: ys).length := by simpa using hlen
        have hlast : (y :: ys).getLast? = some c := by
          rw [← List.getLast?_cons_cons]
          exact hs
        rcases ih (y :: ys) c h.2 hps hlast with ⟨q, hq, heq⟩
        exact ⟨q, List.mem_cons_of_mem p hq, heq⟩

theorem ciLead_take_toLower : ∀ (pat s : List Char), ciLead pat s = true →
    (s.take pat.length).map Char.toLower = pat.map Char.toLower := by
  intro pat
  induction pat with
  | nil => intro s _; rfl
  | cons p ps ih =>
    intro s h
    cases s with
    | nil => cases h
    | cons x cs =>
      simp only [ciLead, Bool.and_eq_true, beq_iff_eq] at h
      simp only [List.length_cons, List.take_succ_cons, List.map_cons]
      rw [ih cs h.2, h.1]

theorem getLast?_drop_lt {α : Type} : ∀ (l : List α) (n : Nat), n < l.length →
    (l.drop n).getLast? = l.getLast? := by
  intro l
  induction l with
  | nil => intro n h; simp at h
  | cons x xs ih =>
    intro n h
    cases n with
    | zero => rfl
    | succ m =>
      have hm : m < xs.length := by simpa using h
      have hxs : xs ≠ [] := by
        cases xs with
        | nil => simp at hm
        | cons y ys => simp
      rw [List.drop_succ_cons, ih m hm]
      cases xs with
      | nil => simp at hm
      | cons y ys => rw [List.getLast?_cons_cons]

/-- The scanner never touches a final character that no pattern character
can match case-insensitively: the output still ends with it. -/
theorem subWordFuel_getLast (p : Char) (ps rep : List Char) (c : Char)
    (hc : ∀ q ∈ p :: ps, q.toLower ≠ c.toLower) :
    ∀ (f : Nat) (prev : Option Char) (s : List Char), s.length ≤ f →
      s.getLast? = some c → (subWordFuel p ps rep f prev s).getLast? = some c := by
  intro f
  induction f with
  | zero => intro prev s _ hs; exact hs
  | succ f ih =>
    intro prev s hf hs
    cases s with
    | nil => exact hs
    | cons x xs =>
      rw [subWordFuel]
      by_cases hcond :
          (boundaryOk prev && ciLead (p :: ps) (x :: xs) && nonWordNext (xs.drop ps.length)) = true
      · rw [if_pos hcond]
        simp only [Bool.and_eq_true] at hcond
        have hci : ciLead (p :: ps) (x :: xs) = true := hcond.1.2
        have hlen : ps.length ≤ xs.length := by
          have := ciLead_length (p :: ps) (x :: xs) hci
          simpa using this
        rcases Nat.lt_or_ge ps.length xs.length with hlt | hge
        · have hxs : xs ≠ [] := by
            cases xs with
            | nil => simp at hlt
            | cons y ys => simp
          have hxsl : xs.getLast? = some c := by
            cases xs with
            | nil => exact absurd rfl hxs
            | cons y ys => rw [← List.getLast?_cons_cons]; exact hs
          have hrest : (xs.drop ps.length).getLast? = some c := by
            rw [getLast?_drop_lt xs ps.length hlt]; exact hxsl
          have hfuel : (xs.drop ps.length).length ≤ f := by
            have h1 : xs.length ≤ f := by simpa using hf
            have := List.length_drop ps.length xs
            omega
          have hout := ih (((x :: xs).take (ps.length + 1)).getLast?) (xs.drop ps.length)
            hfuel hrest
          exact List.mem_getLast?_append_of_mem_getLast? hout
        · exfalso
          have heq : (p :: ps).length = (x :: xs).length := by
            simp only [List.length_cons]
            omega
          rcases ciLead_getLast (p :: ps) (x :: xs) c hci heq hs with ⟨q, hq, hql⟩
          exact hc q hq hql
      · rw [if_neg hcond]
        cases hxs : xs with
        | nil =>
          subst hxs
          rw [subWordFuel_nil]
          exact hs
        | cons y ys =>
          subst hxs
          have hxsl : (y :: ys).getLast? = some c := by
            rw [← List.getLast?_cons_cons]; exact hs
          have hout := ih (some x) (y :: ys) (by simpa using hf) hxsl
          exact List.mem_getLast?_cons hout

/-! ### Claim C8: the cleaned text keeps its terminal punctuation -/

theorem ensurePunct_getLast (t : List Char) (ht : t ≠ []) :
    ∃ c, (ensurePunct t).getLast? = some c ∧ isEndPunct c = true := by
  cases h : t.getLast? with
  | none => exact absurd (List.getLast?_eq_none_iff.mp h) ht
  | some d =>
    have he : ensurePunct t = if isEndPunct d = true then t else t ++ ['.'] := by
      unfold ensurePunct
      rw [h]
    by_cases hd : isEndPunct d = true
    · rw [he, if_pos hd]
      exact ⟨d, h, hd⟩
    · rw [he, if_neg hd]
      exact ⟨'.', List.getLast?_concat t, by decide⟩

/-- No pattern of the fixes table contains a character that matches a
sentence-ending punctuation mark case-insensitively. -/
theorem fixes_avoid_punct (c : Char) (hc : isEndPunct c = true) :
    ∀ pr ∈ common_fixes, ∀ q ∈ pr.1, q.toLower ≠ c.toLower := by
  simp only [isEndPunct, Bool.or_eq_true, beq_iff_eq] at hc
  rcases hc with (h | h) | h <;> subst h <;> decide

theorem foldl_fix_getLast (c : Char)
    (l : List (List Char × List Char))
    (hl : ∀ pr ∈ l, ∀ q ∈ pr.1, q.toLower ≠ c.toLower) :
    ∀ s, s.getLast? = some c →
      (l.foldl (fun acc pr => applyFix pr acc) s).getLast? = some c := by
  induction l with
  | nil => intro s hs; exact hs
  | cons pr rest ih =>
    intro s hs
    rw [List.foldl_cons]
    refine ih (fun x hx => hl x (List.mem_cons_of_mem pr hx)) (applyFix pr s) ?_
    have hq := hl pr (List.mem_cons_self pr rest)
    unfold applyFix
    cases h : pr.1 with
    | nil => exact hs
    | cons p ps =>
      exact subWordFuel_getLast p ps pr.2 c (by rw [h] at hq; exact hq) s.length none s
        (le_refl _) hs

theorem dropWhile_getLast (q : Char → Bool) (c : Char) (hc : q c = false) :
    ∀ (l : List Char), l.getLast? = some c → (l.dropWhile q).getLast? = some c := by
  intro l
  induction l with
  | nil => intro hs; cases hs
  | cons x xs ih =>
    intro hs
    cases hxs : xs with
    | nil =>
      subst hxs
      have : x = c := by simpa using hs
      subst this
      rw [List.dropWhile_cons, hc]
      exact hs
    | cons y ys =>
      subst hxs
      have hxsl : (y :: ys).getLast? = some c := by
        rw [← List.getLast?_cons_cons]; exact hs
      rw [List.dropWhile_cons]
      by_cases hx : q x = true
      · rw [hx]
        simpa using ih hxsl
      · rw [Bool.not_eq_true] at hx
        rw [hx]
        simpa using hs

theorem stripChars_getLast (c : Char) (hcsp : isSpaceChar c = false)
    (s : List Char) (hs : s.getLast? = some c) :
    (stripChars s).getLast? = some c ∧ stripChars s ≠ [] := by
  unfold stripChars
  have hu : (s.dropWhile isSpaceChar).getLast? = some c := dropWhile_getLast _ c hcsp s hs
  have hrev : (s.dropWhile isSpaceChar).reverse.head? = some c := by
    rw [List.head?_reverse]; exact hu
  cases hw : (s.dropWhile isSpaceChar).reverse with
  | nil => rw [hw] at hrev; cases hrev
  | cons z w =>
    have hz : z = c := by rw [hw] at hrev; simpa using hrev
    subst hz
    rw [List.dropWhile_cons, hcsp]
    simp only [Bool.false_eq_true, if_false]
    constructor
    · rw [List.getLast?_reverse]
      rfl
    · simp

/-- The punctuation marks are not whitespace. -/
theorem endPunct_not_space (c : Char) (hc : isEndPunct c = true) : isSpaceChar c = false := by
  simp only [isEndPunct, Bool.or_eq_true, beq_iff_eq] at hc
  rcases hc with (h | h) | h <;> subst h <;> decide

/-- C8: whenever `clean_transcription` returns a non-empty string, its last
character is `'.'`, `'!'` or `'?'` — the fixups and the final strip never
remove the terminal punctuation the function ensures. -/
theorem claim_C8 (t : List Char) (h : clean_transcription t ≠ []) :
    ((clean_transcription t).getLast?.any isEndPunct) = true := by
  have hrepr : clean_transcription t =
      stripChars (applyFixes (ensurePunct (List.intercalate dotSpace
        (((splitDS (collapseWs t)).filter (fun s => !(stripChars s).isEmpty)).map
          (fun s => pyCapitalize (stripChars s)))))) := rfl
  set t2 := List.intercalate dotSpace
    (((splitDS (collapseWs t)).filter (fun s => !(stripChars s).isEmpty)).map
      (fun s => pyCapitalize (stripChars s))) with ht2
  by_cases h2 : t2 = []
  · exfalso
    apply h
    rw [hrepr, h2]
    decide
  · rcases ensurePunct_getLast t2 h2 with ⟨c, hce, hcp⟩
    have hfix : (applyFixes (ensurePunct t2)).getLast? = some c :=
      foldl_fix_getLast c common_fixes (fixes_avoid_punct c hcp) (ensurePunct t2) hce
    rcases stripChars_getLast c (endPunct_not_space c hcp) _ hfix with ⟨hfinal, -⟩
    rw [hrepr, hfinal]
    simpa using hcp

/-- Witness for C8 at a concrete input. -/
theorem claim_C8_witness :
    clean_transcription "hi".data ≠ [] ∧
      ((clean_transcription "hi".data).getLast?.any isEndPunct) = true :=
  ⟨by decide, claim_C8 "hi".data (by decide)⟩

/-! ### Claim C9: the `were` and `aren't` fixup entries -/

/-- With a replacement at least as long as the pattern, one substitution
pass never shortens the text. -/
theorem subWordFuel_length_ge (p : Char) (ps rep : List Char)
    (hrep : ps.length + 1 ≤ rep.length) :
    ∀ (f : Nat) (prev : Option Char) (s : List Char), s.length ≤ f →
      s.length ≤ (subWordFuel p ps rep f prev s).length := by
  intro f
  induction f with
  | zero => intro prev s _; exact le_refl _
  | succ f ih =>
    intro prev s hf
    cases s with
    | nil => simp [subWordFuel_nil]
    | cons x xs =>
      rw [subWordFuel]
      by_cases hcond :
          (boundaryOk prev && ciLead (p :: ps) (x :: xs) && nonWordNext (xs.drop ps.length)) = true
      · rw [if_pos hcond]
        simp only [Bool.and_eq_true] at hcond
        have hlen : ps.length ≤ xs.length := by
          have := ciLead_length (p :: ps) (x :: xs) hcond.1.2
          simpa using this
        have hfuel : (xs.drop ps.length).length ≤ f := by
          have h1 : xs.length ≤ f := by simpa using hf
          have := List.length_drop ps.length xs
          omega
        have hrec := ih (((x :: xs).take (ps.length + 1)).getLast?) (xs.drop ps.length) hfuel
        rw [List.length_append]
        have hdl := List.length_drop ps.length xs
        simp only [List.length_cons]
        omega
      · rw [if_neg hcond]
        have hrec := ih (some x) xs (by simpa using hf)
        simp only [List.length_cons]
        omega

/-- With a strictly longer replacement, a pass over a text that has a
whole-word occurrence strictly lengthens it. -/
theorem subWordFuel_length_gt (p : Char) (ps rep : List Char)
    (hrep : ps.length + 1 < rep.length) :
    ∀ (f : Nat) (prev : Option Char) (s : List Char), s.length ≤ f →
      hasWWFuel p ps f prev s = true →
      s.length < (subWordFuel p ps rep f prev s).length := by
  intro f
  induction f with
  | zero => intro prev s _ hw; cases hw
  | succ f ih =>
    intro prev s hf hw
    cases s with
    | nil => cases hw
    | cons x xs =>
      rw [subWordFuel]
      rw [hasWWFuel] at hw
      by_cases hcond :
          (boundaryOk prev && ciLead (p :: ps) (x :: xs) && nonWordNext (xs.drop ps.length)) = true
      · rw [if_pos hcond]
        simp only [Bool.and_eq_true] at hcond
        have hlen : ps.length ≤ xs.length := by
          have := ciLead_length (p :: ps) (x :: xs) hcond.1.2
          simpa using this
        have hfuel : (xs.drop ps.length).length ≤ f := by
          have h1 : xs.length ≤ f := by simpa using hf
          have := List.length_drop ps.length xs
          omega
        have hrec := subWordFuel_length_ge p ps rep (by omega)
          f (((x :: xs).take (ps.length + 1)).getLast?) (xs.drop ps.length) hfuel
        rw [List.length_append]
        have hdl := List.length_drop ps.length xs
        simp only [List.length_cons]
        omega
      · rw [if_neg hcond]
        have hw2 : hasWWFuel p ps f (some x) xs = true := by
          rcases Bool.or_eq_true_iff.mp hw with h1 | h1
          · exact absurd h1 hcond
          · exact h1
        have hrec := ih (some x) xs (by simpa using hf) hw2
        simp only [List.length_cons]
        omega

/-- A case-insensitive match consumes a prefix with the same lowercase
letters as the pattern. -/
theorem subWordFuel_toLower (p : Char) (ps rep : List Char)
    (hrep : rep.map Char.toLower = (p :: ps).map Char.toLower) :
    ∀ (f : Nat) (prev : Option Char) (s : List Char), s.length ≤ f →
      (subWordFuel p ps rep f prev s).map Char.toLower = s.map Char.toLower := by
  intro f
  induction f with
  | zero => intro prev s _; rfl
  | succ f ih =>
    intro prev s hf
    cases s with
    | nil => rw [subWordFuel_nil]
    | cons x xs =>
      rw [subWordFuel]
      by_cases hcond :
          (boundaryOk prev && ciLead (p :: ps) (x :: xs) && nonWordNext (xs.drop ps.length)) = true
      · rw [if_pos hcond]
        simp only [Bool.and_eq_true] at hcond
        have hfuel : (xs.drop ps.length).length ≤ f := by
          have h1 : xs.length ≤ f := by simpa using hf
          have := List.length_drop ps.length xs
          omega
        have htake := ciLead_take_toLower (p :: ps) (x :: xs) hcond.1.2
        have hrec := ih (((x :: xs).take (ps.length + 1)).getLast?) (xs.drop ps.length) hfuel
        calc (rep ++ subWordFuel p ps rep f (((x :: xs).take (ps.length + 1)).getLast?)
                (xs.drop ps.length)).map Char.toLower
            = rep.map Char.toLower ++ (subWordFuel p ps rep f
                (((x :: xs).take (ps.length + 1)).getLast?)
                (xs.drop ps.length)).map Char.toLower := by rw [List.map_append]
          _ = ((x :: xs).take (ps.length + 1)).map Char.toLower ++
                ((x :: xs).drop (ps.length + 1)).map Char.toLower := by
              rw [hrep, ← htake, hrec]
              rfl
          _ = (x :: xs).map Char.toLower := by
              rw [← List.map_append, List.take_append_drop]
      · rw [if_neg hcond]
        have hrec := ih (some x) xs (by simpa using hf)
        simp only [List.map_cons, hrec]

/-- Counterexample to C9's second half as stated: the `aren't` entry does
change inputs — its case-insensitive match rewrites an uppercased
occurrence to the lowercase replacement, both at the `re.sub` level and
through the whole of `clean_transcription` (whose capitalization step
produces exactly such occurrences). -/
theorem claim_C9_counterexample :
    applyFix ("aren't".data, "aren't".data) "AREN'T".data = "aren't".data ∧
    "aren't".data ≠ ("AREN'T".data : List Char) ∧
    clean_transcription "aren't they".data = "aren't they.".data := by
  refine ⟨?_, ?_, ?_⟩ <;> decide

/-- C9 as amended: the `were` entry does rewrite every input containing a
whole-word, case-insensitive `were` — including ordinary past-tense uses —
and the `aren't` entry maps the already-correct spelling to itself up to
letter case: it can lowercase an occurrence (as the counterexample shows)
but never changes the letters. -/
theorem claim_C9 :
    (∀ s : List Char, hasWholeWordCI "were".data s = true →
      applyFix ("were".data, "we're".data) s ≠ s) ∧
    ("were".data, "we're".data) ∈ common_fixes ∧
    clean_transcription "the tests were green".data = "The tests we're green.".data ∧
    ("aren't".data, "aren't".data) ∈ common_fixes ∧
    (∀ s : List Char, (applyFix ("aren't".data, "aren't".data) s).map Char.toLower =
      s.map Char.toLower) := by
  refine ⟨?_, by decide, by decide, by decide, ?_⟩
  · intro s hw heq
    have hgt := subWordFuel_length_gt 'w' "ere".data "we're".data (by decide)
      s.length none s (le_refl _) hw
    have heq2 : subWordFuel 'w' "ere".data "we're".data s.length none s = s := heq
    rw [heq2] at hgt
    exact lt_irrefl _ hgt
  · intro s
    exact subWordFuel_toLower 'a' "ren't".data "aren't".data (by decide)
      s.length none s (le_refl _)

/-- Witness for C9 at a concrete sentence with a past-tense `were`. -/
theorem claim_C9_witness :
    hasWholeWordCI "were".data "they were here".data = true ∧
      applyFix ("were".data, "we're".data) "they were here".data ≠ "they were here".data :=
  ⟨by decide, claim_C9.1 "they were here".data (by decide)⟩

/-! ### Claim C2: the cleanup function against its specification -/

/-- The two renderings of whitespace collapsing agree. -/
theorem collapseWsSpec_eq (t : List Char) : collapseWsSpec t = collapseWs t := by
  rw [collapseWs]
  induction t with
  | nil => rfl
  | cons c cs ih =>
    cases cs with
    | nil =>
      by_cases h : isSpaceChar c = true <;>
        simp [collapseWsSpec, collapseWsAux, h]
    | cons d rest =>
      by_cases h1 : isSpaceChar c = true
      · by_cases h2 : isSpaceChar d = true
        · simp only [collapseWsSpec, collapseWsAux, h1, h2, Bool.and_self, if_true]
          rw [ih]
          simp [collapseWsAux, h2]
        · simp only [collapseWsSpec, collapseWsAux, h1, h2, Bool.and_false, Bool.false_eq_true,
            if_true, if_false]
          rw [ih]
          simp [collapseWsAux, h2]
      · simp only [collapseWsSpec, collapseWsAux, h1, Bool.false_and, Bool.false_eq_true,
          if_false]
        rw [ih]
        simp [collapseWsAux]

/-- Stripping first and filtering the non-empty results commutes with the
source's comprehension that filters on the stripped sentence. -/
theorem filter_map_strip (l : List (List Char)) :
    ((l.map stripChars).filter (fun s => !s.isEmpty)).map pyCapitalize =
      (l.filter (fun s => !(stripChars s).isEmpty)).map
        (fun s => pyCapitalize (stripChars s)) := by
  induction l with
  | nil => rfl
  | cons x xs ih =>
    by_cases h : (stripChars x).isEmpty = true <;>
      simp [List.filter_cons, h, ih]

/-- C2 exactly as stated is refuted on an all-caps input: the code
lowercases the rest of each sentence and appends a terminal period, while
the claim's three listed transformations leave `HELLO WORLD` unchanged. -/
theorem claim_C2_counterexample :
    clean_transcription "HELLO WORLD".data = "Hello world.".data ∧
    clean_spec_C2 "HELLO WORLD".data = "HELLO WORLD".data ∧
    clean_transcription "HELLO WORLD".data ≠ clean_spec_C2 "HELLO WORLD".data := by
  refine ⟨?_, ?_, ?_⟩ <;> decide

/-- C2 as amended: `clean_transcription` collapses whitespace runs to a
single space, splits on `'. '`, strips each sentence and drops the blank
ones, capitalizes Python-style (first character uppercased, the remainder
lowercased), rejoins with `'. '`, appends `'.'` to a non-empty text not
ending in `'.'`, `'!'` or `'?'`, then applies the whole-word
case-insensitive contraction fixups and strips the result. -/
theorem claim_C2 (t : List Char) : clean_transcription t = clean_spec_C2_amended t := by
  unfold clean_transcription clean_spec_C2_amended
  rw [collapseWsSpec_eq, filter_map_strip]

/-- Sanity: the amended composition and the source function agree on a
concrete mixed input. -/
example :
    clean_spec_C2_amended "i  dont know. its fine".data = "I don't know. Its fine.".data := by
  decide
